import Mathlib

/-!
Verification of the drug-disease-profile-matching repository.

The development shallowly embeds the parts of the code the claims are
about:

* `src/data_sources/tcga/__init__.py`: `ExpressionManager` with
  `samples_by_participant`, `paired`, `split` and `differential`.
  An expression DataFrame is modelled by its gene index (`genes`),
  its columns (TCGA barcodes, each carrying the participant and
  sample-type information that `TCGABarcode` parses from the column
  name) and the numeric entries (`Option ℚ`, with `none` standing
  for NaN).
* `src/signature_scoring/scoring_functions/gsva.py`: the `gsva`
  memoization wrapper and the scorer built by `create_gsva_scorer`.
  The external R computation is a parameter of the model.
* `src/multi_view/layers.py`: `Layers.__init__` / `Layers.filter`
  and `CodingMutationLayer.normalize_by_protein_length`.

Python exceptions are modelled with `Option` (a `none` result stands
for an exception escaping the call, or for an explicit `return None`,
as noted at each definition).
-/

set_option autoImplicit false

namespace DDPM

/-- Python truthiness of an optional integer argument
(`None` and `0` are falsy). -/
def optNatTruthy : Option Nat → Bool
  | none => false
  | some n => n != 0

/-- Python truthiness of an optional string argument
(`None` and the empty string are falsy). -/
def optStrTruthy : Option String → Bool
  | none => false
  | some s => s != ""

/-- A TCGA column label, as parsed by `TCGABarcode` (`.barcode` is the
full column name, `.participant` and `.sample_type` the parsed parts). -/
structure Barcode where
  name : String
  participant : String
  sampleType : String
deriving DecidableEq, Repr

instance : Inhabited Barcode := ⟨⟨"", "", ""⟩⟩

/-- The `ExpressionManager`: a DataFrame with gene rows (`genes`), barcode
columns (`cols`) and entries `expr` (`none` models NaN). -/
structure EM where
  genes : List String
  cols : List Barcode
  expr : String → Barcode → Option ℚ

/-- Pandas `DataFrame.empty`: true when either axis has length 0. -/
def EM.isEmptyDF (em : EM) : Bool := em.genes.isEmpty || em.cols.isEmpty

/-- Column selection by label list, `self[[name, ...]]`: for each label in
turn, all columns carrying that label. -/
def EM.selectCols (em : EM) (names : List String) : EM :=
  { em with cols := names.flatMap (fun n => em.cols.filter (fun b => b.name == n)) }

/-- The set `ParticipantSamples.by_type` restricted to one sample type: the
samples of the given type (the Python `set` is modelled as the sublist,
column labels being unique in a DataFrame). -/
def byType (samples : List Barcode) (t : String) : List Barcode :=
  samples.filter (fun b => b.sampleType == t)

/-- The participants in order of first appearance among the columns:
the key order of the `defaultdict` built by `samples_by_participant`. -/
def participantsOrder (cols : List Barcode) : List String :=
  cols.foldl (fun acc b => if b.participant ∈ acc then acc else acc ++ [b.participant]) []

/-- The group `samples_by_participant()[p]`: the samples of participant `p`,
in column order. -/
def samplesOf (cols : List Barcode) (p : String) : List Barcode :=
  cols.filter (fun b => b.participant == p)

/-- The body of the `for participant_samples in ...` loop of `paired`
for one participant: what gets appended to the accumulator `paired`,
`none` when an `assert` of the `spread` branch fails. -/
def pairedFor (type_one type_two : String) (limit_to : Option Nat)
    (spread : Option String) (ps : List Barcode) : Option (List Barcode) :=
  if (byType ps type_one).isEmpty || (byType ps type_two).isEmpty then
    some []
  else if optNatTruthy limit_to then
    some ((byType ps type_one).take (limit_to.getD 0)
      ++ (byType ps type_two).take (limit_to.getD 0))
  else if optStrTruthy spread then
    let s := spread.getD ""
    if s == type_one || s == type_two then
      let not_spread := if s == type_one then type_two else type_one
      let cases := byType ps not_spread
      let controls := byType ps s
      if controls.length == 1 then
        some (cases ++ (List.replicate cases.length controls).flatten)
      else
        none
    else
      none
  else
    some ps

/-- The accumulating loop of `paired`: concatenates the per-participant
contributions, propagating an assertion failure. -/
def pairedLoop (f : String → Option (List Barcode)) : List String → Option (List Barcode)
  | [] => some []
  | p :: rest => do
    let c ← f p
    let r ← pairedLoop f rest
    pure (c ++ r)

/-- The method `ExpressionManager.paired`; `none` models an `AssertionError`. -/
def ExpressionManager.paired (em : EM) (type_one type_two : String)
    (limit_to : Option Nat := none) (spread : Option String := none) : Option EM :=
  -- assert not (spread and limit_to)
  if optStrTruthy spread && optNatTruthy limit_to then none
  else do
    let prd ← pairedLoop
      (fun p => pairedFor type_one type_two limit_to spread (samplesOf em.cols p))
      (participantsOrder em.cols)
    pure (em.selectCols (prd.map (fun b => b.name)))

/-- Does participant `p` have at least one sample of type `t` among
the columns? -/
def hasSampleOfType (cols : List Barcode) (p t : String) : Bool :=
  cols.any (fun b => b.participant == p && b.sampleType == t)

section PairedPlain

theorem mem_participantsOrder_aux (cols : List Barcode) (acc : List String) (p : String) :
    (p ∈ cols.foldl
        (fun acc b => if b.participant ∈ acc then acc else acc ++ [b.participant]) acc) ↔
      p ∈ acc ∨ ∃ b ∈ cols, b.participant = p := by
  induction cols generalizing acc with
  | nil => simp
  | cons c rest ih =>
    simp only [List.foldl_cons]
    by_cases h : c.participant ∈ acc
    · rw [if_pos h, ih]
      constructor
      · rintro (hp | hb)
        · exact Or.inl hp
        · exact Or.inr ⟨hb.choose, by simp [hb.choose_spec]⟩
      · rintro (hp | ⟨b, hb, rfl⟩)
        · exact Or.inl hp
        · rcases List.mem_cons.mp hb with rfl | hb'
          · exact Or.inl h
          · exact Or.inr ⟨b, hb', rfl⟩
    · rw [if_neg h, ih]
      constructor
      · rintro (hp | hb)
        · rcases List.mem_append.mp hp with hp' | hp'
          · exact Or.inl hp'
          · exact Or.inr ⟨c, by simp, (List.mem_singleton.mp hp').symm⟩
        · exact Or.inr ⟨hb.choose, by simp [hb.choose_spec]⟩
      · rintro (hp | ⟨b, hb, rfl⟩)
        · exact Or.inl (List.mem_append.mpr (Or.inl hp))
        · rcases List.mem_cons.mp hb with rfl | hb'
          · exact Or.inl (List.mem_append.mpr (Or.inr (by simp)))
          · exact Or.inr ⟨b, hb', rfl⟩

theorem mem_participantsOrder (cols : List Barcode) (p : String) :
    p ∈ participantsOrder cols ↔ ∃ b ∈ cols, b.participant = p := by
  rw [participantsOrder, mem_participantsOrder_aux]
  simp

theorem participantsOrder_nodup_aux (cols : List Barcode) (acc : List String)
    (hacc : acc.Nodup) :
    (cols.foldl
      (fun acc b => if b.participant ∈ acc then acc else acc ++ [b.participant]) acc).Nodup := by
  induction cols generalizing acc with
  | nil => exact hacc
  | cons c rest ih =>
    simp only [List.foldl_cons]
    by_cases h : c.participant ∈ acc
    · rw [if_pos h]; exact ih acc hacc
    · rw [if_neg h]
      exact ih _ (by simp [List.nodup_append, hacc, h])

theorem participantsOrder_nodup (cols : List Barcode) : (participantsOrder cols).Nodup :=
  participantsOrder_nodup_aux cols [] List.nodup_nil

theorem pairedFor_plain (t1 t2 : String) (ps : List Barcode) :
    pairedFor t1 t2 none none ps =
      some (if (byType ps t1).isEmpty || (byType ps t2).isEmpty then [] else ps) := by
  by_cases h : ((byType ps t1).isEmpty || (byType ps t2).isEmpty) = true
  · simp [pairedFor, h]
  · simp [pairedFor, h, optNatTruthy, optStrTruthy]

theorem pairedLoop_total (f : String → Option (List Barcode)) (g : String → List Barcode)
    (l : List String) (h : ∀ p ∈ l, f p = some (g p)) :
    pairedLoop f l = some (l.flatMap g) := by
  induction l with
  | nil => rfl
  | cons p rest ih =>
    have hp : f p = some (g p) := h p (by simp)
    have hr : pairedLoop f rest = some (rest.flatMap g) :=
      ih (fun q hq => h q (by simp [hq]))
    simp [pairedLoop, hp, hr]

theorem byType_samplesOf_empty_iff (cols : List Barcode) (p t : String) :
    (byType (samplesOf cols p) t).isEmpty = true ↔ hasSampleOfType cols p t = false := by
  simp [byType, samplesOf, hasSampleOfType, List.isEmpty_iff, List.filter_filter,
    List.filter_eq_nil_iff]
  aesop

theorem count_filter_of_neg {q : Barcode → Bool} {b : Barcode} (h : ¬ q b = true)
    (l : List Barcode) : (l.filter q).count b = 0 :=
  List.count_eq_zero_of_not_mem (fun hm => h (List.mem_filter.mp hm).2)

theorem sum_map_single (P : List String) (hP : P.Nodup) (term : String → Nat) (p₀ : String)
    (h0 : ∀ p, p ≠ p₀ → term p = 0) :
    (P.map term).sum = if p₀ ∈ P then term p₀ else 0 := by
  induction P with
  | nil => simp
  | cons q rest ih =>
    rcases List.nodup_cons.mp hP with ⟨hq, hrest⟩
    simp only [List.map_cons, List.sum_cons]
    rw [ih hrest]
    by_cases hq0 : q = p₀
    · subst hq0
      rw [if_neg hq, if_pos (List.mem_cons_self q rest)]
      simp
    · rw [h0 q hq0]
      by_cases hm : p₀ ∈ rest
      · rw [if_pos hm, if_pos (List.mem_cons_of_mem q hm)]
        simp
      · rw [if_neg hm, if_neg (by
          intro hc
          rcases List.mem_cons.mp hc with h' | h'
          · exact hq0 h'.symm
          · exact hm h')]

theorem count_grouped (cols : List Barcode) (cond : String → Bool) (b : Barcode) :
    ((participantsOrder cols).flatMap
        (fun p => if cond p then samplesOf cols p else [])).count b
      = (cols.filter (fun c => cond c.participant)).count b := by
  rw [List.count_flatMap]
  have hterm : ∀ p, p ≠ b.participant →
      (List.count b ∘ fun p => if cond p then samplesOf cols p else []) p = 0 := by
    intro p hp
    simp only [Function.comp_apply]
    by_cases hc : cond p = true
    · rw [if_pos hc, samplesOf]
      exact count_filter_of_neg
        (by simp only [beq_iff_eq]; exact fun h => hp h.symm) cols
    · simp [hc]
  rw [sum_map_single _ (participantsOrder_nodup cols) _ b.participant hterm]
  by_cases hb : b ∈ cols
  · have hmem : b.participant ∈ participantsOrder cols :=
      (mem_participantsOrder cols b.participant).mpr ⟨b, hb, rfl⟩
    rw [if_pos hmem]
    simp only [Function.comp_apply]
    by_cases hc : cond b.participant = true
    · rw [if_pos hc, samplesOf, List.count_filter (by simp), List.count_filter (by simp [hc])]
    · rw [if_neg hc, count_filter_of_neg (by simp [hc]) cols]
      rfl
  · have h1 : List.count b cols = 0 := List.count_eq_zero_of_not_mem hb
    have h2 : (cols.filter (fun c => cond c.participant)).count b = 0 :=
      List.count_eq_zero_of_not_mem (fun hm => hb (List.mem_filter.mp hm).1)
    rw [h2]
    by_cases hmem : b.participant ∈ participantsOrder cols
    · rw [if_pos hmem]
      simp only [Function.comp_apply]
      by_cases hc : cond b.participant = true
      · rw [if_pos hc, samplesOf, List.count_filter (by simp), h1]
      · simp [hc]
    · rw [if_neg hmem]

theorem filter_name_eq_single {cols : List Barcode} (hnd : (cols.map Barcode.name).Nodup)
    {b : Barcode} (hb : b ∈ cols) :
    cols.filter (fun c => c.name == b.name) = [b] := by
  induction cols with
  | nil => cases hb
  | cons c rest ih =>
    simp only [List.map_cons, List.nodup_cons] at hnd
    rcases hnd with ⟨hcn, hrest⟩
    rcases List.mem_cons.mp hb with rfl | hb'
    · have hrest0 : rest.filter (fun c => c.name == b.name) = [] := by
        rw [List.filter_eq_nil_iff]
        intro x hx hxb
        apply hcn
        have hm := List.mem_map_of_mem Barcode.name hx
        rwa [beq_iff_eq.mp hxb] at hm
      simp [List.filter_cons, hrest0]
    · have hne : (c.name == b.name) = false := by
        rw [beq_eq_false_iff_ne]
        intro hc
        apply hcn
        have hm := List.mem_map_of_mem Barcode.name hb'
        rwa [← hc] at hm
      rw [List.filter_cons, if_neg (by simp [hne])]
      exact ih hrest hb'

theorem selectCols_of_subset {cols sub : List Barcode} (hnd : (cols.map Barcode.name).Nodup)
    (hsub : ∀ b ∈ sub, b ∈ cols) :
    (sub.map Barcode.name).flatMap (fun n => cols.filter (fun c => c.name == n)) = sub := by
  induction sub with
  | nil => rfl
  | cons b rest ih =>
    simp only [List.map_cons, List.flatMap_cons]
    rw [filter_name_eq_single hnd (hsub b (by simp)),
      ih (fun x hx => hsub x (by simp [hx]))]
    rfl

theorem byType_samplesOf_empty (cols : List Barcode) (p t : String) :
    (byType (samplesOf cols p) t).isEmpty = !(hasSampleOfType cols p t) := by
  rcases Bool.eq_false_or_eq_true (hasSampleOfType cols p t) with h | h
  · rw [h, Bool.not_true]
    rcases Bool.eq_false_or_eq_true ((byType (samplesOf cols p) t).isEmpty) with h2 | h2
    · have hf := (byType_samplesOf_empty_iff cols p t).mp h2
      rw [h] at hf
      simp at hf
    · exact h2
  · rw [h, Bool.not_false, (byType_samplesOf_empty_iff cols p t).mpr h]

end PairedPlain

/-- What the accumulator `paired` holds after the loop when neither
`limit_to` nor `spread` is given: per participant in first-appearance
order, all samples of participants having both types. -/
def pairedList (cols : List Barcode) (t1 t2 : String) : List Barcode :=
  (participantsOrder cols).flatMap
    (fun p => if hasSampleOfType cols p t1 && hasSampleOfType cols p t2 then
        samplesOf cols p
      else [])

theorem pairedFor_plain_cond (cols : List Barcode) (t1 t2 p : String) :
    pairedFor t1 t2 none none (samplesOf cols p)
      = some (if hasSampleOfType cols p t1 && hasSampleOfType cols p t2 then
          samplesOf cols p
        else []) := by
  rw [pairedFor_plain, byType_samplesOf_empty, byType_samplesOf_empty]
  cases h1 : hasSampleOfType cols p t1 <;>
    cases h2 : hasSampleOfType cols p t2 <;> simp [h1, h2]

theorem paired_plain_eq (em : EM) (t1 t2 : String) :
    ExpressionManager.paired em t1 t2 none none
      = some (em.selectCols ((pairedList em.cols t1 t2).map Barcode.name)) := by
  unfold ExpressionManager.paired
  rw [if_neg (by simp [optStrTruthy, optNatTruthy])]
  rw [pairedLoop_total _ _ _ (fun p _ => pairedFor_plain_cond em.cols t1 t2 p)]
  rfl

theorem pairedList_subset (cols : List Barcode) (t1 t2 : String) :
    ∀ b ∈ pairedList cols t1 t2, b ∈ cols := by
  intro b hb
  rcases List.mem_flatMap.mp hb with ⟨p, _, hbp⟩
  by_cases hc : (hasSampleOfType cols p t1 && hasSampleOfType cols p t2) = true
  · rw [if_pos hc] at hbp
    exact (List.mem_filter.mp hbp).1
  · rw [if_neg hc] at hbp
    cases hbp

theorem selectCols_eq {em : EM} {sub : List Barcode}
    (hnd : (em.cols.map Barcode.name).Nodup) (hsub : ∀ b ∈ sub, b ∈ em.cols) :
    em.selectCols (sub.map Barcode.name) = { em with cols := sub } := by
  unfold EM.selectCols
  rw [selectCols_of_subset hnd hsub]

theorem paired_plain_cols (em : EM) (t1 t2 : String)
    (hnd : (em.cols.map Barcode.name).Nodup) :
    ExpressionManager.paired em t1 t2 none none
      = some { em with cols := pairedList em.cols t1 t2 } := by
  rw [paired_plain_eq, selectCols_eq hnd (pairedList_subset em.cols t1 t2)]

/-- C1: with `limit_to` and `spread` both unset, `paired(type_one, type_two)`
returns exactly the columns of samples belonging to participants that have at
least one sample of `type_one` and at least one sample of `type_two` (all
samples of each such participant included, samples of other participants
excluded). Stated for expression data whose column labels are distinct, as
label-based column selection requires. -/
theorem claim_C1_paired_plain_exact (em : EM) (t1 t2 : String)
    (hnd : (em.cols.map Barcode.name).Nodup) :
    ∃ r, ExpressionManager.paired em t1 t2 none none = some r ∧
      r.genes = em.genes ∧
      r.cols.Perm (em.cols.filter
        (fun b => hasSampleOfType em.cols b.participant t1
          && hasSampleOfType em.cols b.participant t2)) := by
  refine ⟨{ em with cols := pairedList em.cols t1 t2 },
    paired_plain_cols em t1 t2 hnd, rfl, ?_⟩
  show (pairedList em.cols t1 t2).Perm _
  rw [List.perm_iff_count]
  intro b
  exact count_grouped em.cols
    (fun p => hasSampleOfType em.cols p t1 && hasSampleOfType em.cols p t2) b

section PairedSpread

theorem flatten_replicate_singleton (n : Nat) (c : Barcode) :
    (List.replicate n [c]).flatten = List.replicate n c := by
  induction n with
  | zero => rfl
  | succ k ih => simp [List.replicate_succ, ih]

theorem filter_replicate_barcode (n : Nat) (c : Barcode) (p : Barcode → Bool) :
    (List.replicate n c).filter p = if p c then List.replicate n c else [] := by
  induction n with
  | zero => simp
  | succ k ih => cases hp : p c <;> simp [List.replicate_succ, List.filter_cons, hp, ih]

theorem pairedFor_spread (t1 t2 s : String) (hs : s = t1 ∨ s = t2) (hsne : s ≠ "")
    (ps : List Barcode)
    (h1 : ((byType ps t1).isEmpty || (byType ps t2).isEmpty) = false →
      (byType ps s).length = 1) :
    pairedFor t1 t2 none (some s) ps =
      some (if (byType ps t1).isEmpty || (byType ps t2).isEmpty then []
        else (byType ps (if s == t1 then t2 else t1))
          ++ List.replicate (byType ps (if s == t1 then t2 else t1)).length
              ((byType ps s).headI)) := by
  by_cases he : ((byType ps t1).isEmpty || (byType ps t2).isEmpty) = true
  · simp [pairedFor, he]
  · have he' : ((byType ps t1).isEmpty || (byType ps t2).isEmpty) = false := by
      simpa using he
    have hlen : (byType ps s).length = 1 := h1 he'
    obtain ⟨c, hc⟩ := List.length_eq_one.mp hlen
    have hguard : (s == t1 || s == t2) = true := by
      rcases hs with h | h <;> simp [h]
    have hstr : optStrTruthy (some s) = true := by simp [optStrTruthy, hsne]
    simp [pairedFor, he', hstr, hguard, hc, optNatTruthy, flatten_replicate_singleton]

theorem mem_of_mem_byType_samplesOf {cols : List Barcode} {p t : String} {b : Barcode}
    (h : b ∈ byType (samplesOf cols p) t) : b ∈ cols := by
  simp only [byType, samplesOf, List.mem_filter] at h
  exact h.1.1

theorem sampleType_of_mem_byType {l : List Barcode} {t : String} {b : Barcode}
    (h : b ∈ byType l t) : b.sampleType = t := by
  simp only [byType, List.mem_filter, beq_iff_eq] at h
  exact h.2

end PairedSpread

/-- The per-participant column block claim C7 describes: all samples of the
type that is not spread, followed by the single spread sample duplicated
once per sample of the other type. -/
def claimedSpreadBlock (cols : List Barcode) (t1 t2 s : String) (p : String) :
    List Barcode :=
  let not_spread := if s == t1 then t2 else t1
  let cases := byType (samplesOf cols p) not_spread
  cases ++ List.replicate cases.length ((byType (samplesOf cols p) s).headI)

/-- C7: `paired(type_one, type_two, spread=s)` with `s` one of the two
types, when every participant having samples of both types has exactly
one sample of type `s`, returns for each such participant all of its
samples of the other type followed by that single spread sample duplicated
once per sample of the other type, so each contributing participant
supplies equal numbers of samples of the two types. -/
theorem claim_C7_paired_spread (em : EM) (t1 t2 s : String)
    (hnd : (em.cols.map Barcode.name).Nodup)
    (hs : s = t1 ∨ s = t2) (hsne : s ≠ "")
    (hone : ∀ p ∈ participantsOrder em.cols,
      (hasSampleOfType em.cols p t1 && hasSampleOfType em.cols p t2) = true →
      (byType (samplesOf em.cols p) s).length = 1) :
    ∃ r, ExpressionManager.paired em t1 t2 none (some s) = some r ∧
      r.genes = em.genes ∧
      r.cols = (participantsOrder em.cols).flatMap (fun p =>
        if hasSampleOfType em.cols p t1 && hasSampleOfType em.cols p t2 then
          claimedSpreadBlock em.cols t1 t2 s p
        else []) ∧
      (∀ p ∈ participantsOrder em.cols,
        (hasSampleOfType em.cols p t1 && hasSampleOfType em.cols p t2) = true →
        ((claimedSpreadBlock em.cols t1 t2 s p).filter
            (fun b => b.sampleType == (if s == t1 then t2 else t1))).length =
          ((claimedSpreadBlock em.cols t1 t2 s p).filter
            (fun b => b.sampleType == s)).length) := by
  have hfor : ∀ p ∈ participantsOrder em.cols,
      pairedFor t1 t2 none (some s) (samplesOf em.cols p)
        = some (if hasSampleOfType em.cols p t1 && hasSampleOfType em.cols p t2 then
            claimedSpreadBlock em.cols t1 t2 s p
          else []) := by
    intro p hp
    have h1 : ((byType (samplesOf em.cols p) t1).isEmpty
        || (byType (samplesOf em.cols p) t2).isEmpty) = false →
        (byType (samplesOf em.cols p) s).length = 1 := by
      rw [byType_samplesOf_empty, byType_samplesOf_empty]
      intro hfalse
      apply hone p hp
      cases ha : hasSampleOfType em.cols p t1 <;>
        cases hb : hasSampleOfType em.cols p t2 <;>
          simp [ha, hb] at hfalse ⊢
    rw [pairedFor_spread t1 t2 s hs hsne _ h1,
      byType_samplesOf_empty, byType_samplesOf_empty]
    cases ha : hasSampleOfType em.cols p t1 <;>
      cases hb : hasSampleOfType em.cols p t2 <;>
        simp [ha, hb, claimedSpreadBlock]
  have hloop := pairedLoop_total
    (fun p => pairedFor t1 t2 none (some s) (samplesOf em.cols p))
    (fun p => if hasSampleOfType em.cols p t1 && hasSampleOfType em.cols p t2 then
        claimedSpreadBlock em.cols t1 t2 s p
      else [])
    (participantsOrder em.cols) hfor
  set L := (participantsOrder em.cols).flatMap
    (fun p => if hasSampleOfType em.cols p t1 && hasSampleOfType em.cols p t2 then
        claimedSpreadBlock em.cols t1 t2 s p
      else []) with hL
  have hsub : ∀ b ∈ L, b ∈ em.cols := by
    intro b hb
    rw [hL] at hb
    rcases List.mem_flatMap.mp hb with ⟨p, hpP, hbp⟩
    by_cases hc : (hasSampleOfType em.cols p t1 && hasSampleOfType em.cols p t2) = true
    · rw [if_pos hc] at hbp
      obtain ⟨c, hceq⟩ := List.length_eq_one.mp (hone p hpP hc)
      simp only [claimedSpreadBlock] at hbp
      rcases List.mem_append.mp hbp with h | h
      · exact mem_of_mem_byType_samplesOf h
      · have hbc : b = (byType (samplesOf em.cols p) s).headI :=
          List.eq_of_mem_replicate h
        have hcmem : c ∈ byType (samplesOf em.cols p) s := by
          rw [hceq]
          exact List.mem_singleton_self c
        rw [hbc, hceq]
        exact mem_of_mem_byType_samplesOf hcmem
    · rw [if_neg hc] at hbp
      cases hbp
  refine ⟨em.selectCols (L.map Barcode.name), ?_, rfl, ?_, ?_⟩
  · unfold ExpressionManager.paired
    rw [if_neg (by simp [optNatTruthy])]
    rw [hloop]
    rfl
  · show ((L.map Barcode.name).flatMap
        (fun n => em.cols.filter (fun c => c.name == n))) = L
    exact selectCols_of_subset hnd hsub
  · intro p hp hc
    obtain ⟨c, hceq⟩ := List.length_eq_one.mp (hone p hp hc)
    have hcmem : c ∈ byType (samplesOf em.cols p) s := by
      rw [hceq]
      exact List.mem_singleton_self c
    have hcs : c.sampleType = s := sampleType_of_mem_byType hcmem
    set nS := (if s == t1 then t2 else t1) with hnS
    have hall : ∀ x ∈ byType (samplesOf em.cols p) nS, x.sampleType = nS :=
      fun x hx => sampleType_of_mem_byType hx
    simp only [claimedSpreadBlock, hceq, List.headI]
    rw [← hnS]
    rw [List.filter_append, List.filter_append, List.length_append, List.length_append,
      filter_replicate_barcode, filter_replicate_barcode]
    have h1 : ((byType (samplesOf em.cols p) nS).filter
        (fun b => b.sampleType == nS)) = byType (samplesOf em.cols p) nS :=
      List.filter_eq_self.mpr (fun x hx => by
        show (x.sampleType == nS) = true
        rw [hall x hx]
        exact beq_self_eq_true nS)
    by_cases hEq : s = nS
    · have h2 : ((byType (samplesOf em.cols p) nS).filter
          (fun b => b.sampleType == s)) = byType (samplesOf em.cols p) nS :=
        List.filter_eq_self.mpr (fun x hx => by
          show (x.sampleType == s) = true
          rw [hall x hx, ← hEq]
          exact beq_self_eq_true s)
      rw [h1, h2,
        if_pos (show (c.sampleType == nS) = true by
          rw [hcs, hEq]; exact beq_self_eq_true nS),
        if_pos (show (c.sampleType == s) = true by
          rw [hcs]; exact beq_self_eq_true s)]
    · have h2 : ((byType (samplesOf em.cols p) nS).filter
          (fun b => b.sampleType == s)) = [] :=
        List.filter_eq_nil_iff.mpr (fun x hx => by
          show ¬(x.sampleType == s) = true
          rw [hall x hx, beq_iff_eq]
          exact fun hcon => hEq hcon.symm)
      rw [h1, h2,
        if_neg (show ¬(c.sampleType == nS) = true by
          rw [hcs, beq_iff_eq]; exact hEq),
        if_pos (show (c.sampleType == s) = true by
          rw [hcs]; exact beq_self_eq_true s)]
      simp only [List.length_nil, List.length_replicate]
      omega

/-- Concrete data for the C7 witness: participant `A` has two tumor samples
and exactly one normal sample, participant `B` has only a tumor sample. -/
def emC7 : EM :=
  { genes := ["g"]
    cols := [⟨"A-01A", "A", "tumor"⟩, ⟨"A-01B", "A", "tumor"⟩,
             ⟨"B-01", "B", "tumor"⟩, ⟨"A-11", "A", "normal"⟩]
    expr := fun _ _ => some 0 }

/-- C7 witness: all hypotheses hold for `emC7` with the normal samples
spread, and the theorem applies to it. -/
theorem claim_C7_witness :
    ((emC7.cols.map Barcode.name).Nodup ∧
      ("normal" = "tumor" ∨ ("normal" : String) = "normal") ∧
      ("normal" : String) ≠ "" ∧
      (∀ p ∈ participantsOrder emC7.cols,
        (hasSampleOfType emC7.cols p "tumor" && hasSampleOfType emC7.cols p "normal") = true →
        (byType (samplesOf emC7.cols p) "normal").length = 1)) ∧
    (∃ r, ExpressionManager.paired emC7 "tumor" "normal" none (some "normal") = some r ∧
      r.genes = emC7.genes ∧
      r.cols = (participantsOrder emC7.cols).flatMap (fun p =>
        if hasSampleOfType emC7.cols p "tumor" && hasSampleOfType emC7.cols p "normal" then
          claimedSpreadBlock emC7.cols "tumor" "normal" "normal" p
        else []) ∧
      (∀ p ∈ participantsOrder emC7.cols,
        (hasSampleOfType emC7.cols p "tumor" && hasSampleOfType emC7.cols p "normal") = true →
        ((claimedSpreadBlock emC7.cols "tumor" "normal" "normal" p).filter
            (fun b => b.sampleType == (if "normal" == "tumor" then "normal" else "tumor"))).length =
          ((claimedSpreadBlock emC7.cols "tumor" "normal" "normal" p).filter
            (fun b => b.sampleType == "normal")).length)) :=
  ⟨⟨by decide, Or.inr rfl, by decide, by decide⟩,
    claim_C7_paired_spread emC7 "tumor" "normal" "normal"
      (by decide) (Or.inr rfl) (by decide) (by decide)⟩

/-- A small concrete expression manager: participant `A` has a tumor and a
normal sample, participant `B` only a tumor sample. -/
def emC1 : EM :=
  { genes := ["g1", "g2"]
    cols := [⟨"A-01", "A", "tumor"⟩, ⟨"B-01", "B", "tumor"⟩, ⟨"A-11", "A", "normal"⟩]
    expr := fun _ _ => some 1 }

/-- C1 witness: the label-distinctness hypothesis holds for `emC1` and the
theorem applies to it. -/
theorem claim_C1_witness :
    (emC1.cols.map Barcode.name).Nodup ∧
    ∃ r, ExpressionManager.paired emC1 "tumor" "normal" none none = some r ∧
      r.genes = emC1.genes ∧
      r.cols.Perm (emC1.cols.filter
        (fun b => hasSampleOfType emC1.cols b.participant "tumor"
          && hasSampleOfType emC1.cols b.participant "normal")) :=
  ⟨by decide, claim_C1_paired_plain_exact emC1 "tumor" "normal" (by decide)⟩

/-- The method `ExpressionManager.split`: pairs the data when `only_paired`, returns
`None` (here `none`) when the resulting DataFrame is empty, and otherwise
the case columns and the control columns (boolean-mask column selection on
`classes`, i.e. on the barcode sample type). -/
def ExpressionManager.split (em : EM) (case_ control_ : String)
    (only_paired : Bool) : Option (EM × EM) := do
  let prd ← if only_paired then ExpressionManager.paired em case_ control_ none none
    else some em
  if prd.isEmptyDF then none
  else
    some ({ prd with cols := prd.cols.filter (fun b => b.sampleType == case_) },
      { prd with cols := prd.cols.filter (fun b => b.sampleType == control_) })

/-- C8: `split(case_, control_, only_paired=True)` returns `None` when the
paired subset is empty (in the pandas sense: either axis of length zero) and
otherwise the pair of the paired columns of class `case_` and the paired
columns of class `control_`. -/
theorem claim_C8_split_paired (em : EM) (case_ control_ : String)
    (hnd : (em.cols.map Barcode.name).Nodup) :
    ∃ prd, ExpressionManager.paired em case_ control_ none none = some prd ∧
      (prd.isEmptyDF = true → ExpressionManager.split em case_ control_ true = none) ∧
      (prd.isEmptyDF = false → ExpressionManager.split em case_ control_ true =
        some ({ prd with cols := prd.cols.filter (fun b => b.sampleType == case_) },
          { prd with cols := prd.cols.filter (fun b => b.sampleType == control_) })) := by
  have hpr := paired_plain_cols em case_ control_ hnd
  refine ⟨_, hpr, ?_, ?_⟩
  · intro hE
    unfold ExpressionManager.split
    simp [hpr, hE]
  · intro hE
    unfold ExpressionManager.split
    simp [hpr, hE]

/-- C8 witness: the label-distinctness hypothesis holds for `emC1` and the
theorem applies to it. -/
theorem claim_C8_witness :
    (emC1.cols.map Barcode.name).Nodup ∧
    (∃ prd, ExpressionManager.paired emC1 "tumor" "normal" none none = some prd ∧
      (prd.isEmptyDF = true → ExpressionManager.split emC1 "tumor" "normal" true = none) ∧
      (prd.isEmptyDF = false → ExpressionManager.split emC1 "tumor" "normal" true =
        some ({ prd with cols := prd.cols.filter (fun b => b.sampleType == "tumor") },
          { prd with cols := prd.cols.filter (fun b => b.sampleType == "normal") }))) := by
  have h := claim_C8_split_paired emC1 "tumor" "normal" (by decide)
  exact ⟨by decide, h⟩

/-- The Python set of the gene index, as a list in first-occurrence order
(the order of a Python set is arbitrary; no claim depends on it). -/
def dedupFirst (l : List String) : List String :=
  l.foldl (fun acc g => if g ∈ acc then acc else acc ++ [g]) []

/-- First `genes = set(case.index)`, then `if limit_to: genes = genes & set(limit_to)`
(an empty `limit_to` is falsy and imposes no restriction). -/
def genesAfterLimit (gs : List String) (limit_to : Option (List String)) : List String :=
  match limit_to with
  | none => gs
  | some lst => if lst.isEmpty then gs else gs.filter (fun g => lst.contains g)

/-- Row selection `frame.loc[g]`: the row of values of gene `g` over the columns. -/
def EM.row (em : EM) (g : String) : List (Option ℚ) :=
  em.cols.map (fun b => em.expr g b)

/-- The `metric` argument of `differential`: the code tests
`metric is signal_to_noise` by identity; any other callable is applied
gene by gene and may raise `StatisticsError` (modelled by `Except`). -/
inductive Metric where
  | signal_to_noise : Metric
  | custom (f : List (Option ℚ) → List (Option ℚ) → Except Unit (Option ℚ)) : Metric

/-- The method `ExpressionManager.differential` with `additional_controls=None` (its
default). `snv` stands for `signal_to_noise_vectorized`.
Modelled from the spec: the `metrics` module providing `signal_to_noise`
and `signal_to_noise_vectorized` is not under `src/`, so the vectorized
metric is a parameter applied per gene row. `index_as_bytes` only changes
the index representation and is modelled as the identity. A `none` result
models `return None` (empty case or control, `StatisticsError`) as well as
the `TypeError` raised when unpacking a `None` result of `split`. -/
def ExpressionManager.differential
    (snv : List (Option ℚ) → List (Option ℚ) → Option ℚ)
    (em : EM) (case_ control_ : String) (metric : Metric)
    (limit_to : Option (List String)) (only_paired : Bool) (nans : String) :
    Option (List (String × Option ℚ)) := do
  let cc ← ExpressionManager.split em case_ control_ only_paired
  if cc.1.isEmptyDF || cc.2.isEmptyDF then none
  else
    let genes := genesAfterLimit (dedupFirst cc.1.genes) limit_to
    let scores ← match metric with
      | Metric.signal_to_noise =>
          some (genes.map (fun g => snv (cc.1.row g) (cc.2.row g)))
      | Metric.custom f =>
          genes.mapM (fun g => (f (cc.1.row g) (cc.2.row g)).toOption)
    let series := genes.zip scores
    pure (if nans == "fill_0" then
        series.map (fun gv => (gv.1, some (gv.2.getD 0)))
      else series)

theorem isEmpty_false_of_mem {α : Type} {l : List α} {x : α} (h : x ∈ l) :
    l.isEmpty = false := by
  cases l
  · cases h
  · rfl

theorem isEmpty_false_of_ne {α : Type} {l : List α} (h : l ≠ []) :
    l.isEmpty = false := by
  cases l
  · exact absurd rfl h
  · rfl

theorem differential_snr_eq
    (snv : List (Option ℚ) → List (Option ℚ) → Option ℚ)
    (em : EM) (case_ control_ : String) (limit_to : Option (List String))
    (cc : EM × EM)
    (hsplit : ExpressionManager.split em case_ control_ true = some cc)
    (h1 : cc.1.isEmptyDF = false) (h2 : cc.2.isEmptyDF = false) :
    ExpressionManager.differential snv em case_ control_
        Metric.signal_to_noise limit_to true "fill_0"
      = some ((genesAfterLimit (dedupFirst cc.1.genes) limit_to).map
          (fun g => (g, some ((snv (cc.1.row g) (cc.2.row g)).getD 0)))) := by
  unfold ExpressionManager.differential
  rw [hsplit]
  simp only [Option.bind_eq_bind, Option.some_bind, h1, h2, Bool.or_self,
    Bool.false_eq_true, if_false]
  have hzip : (genesAfterLimit (dedupFirst cc.1.genes) limit_to).zip
      ((genesAfterLimit (dedupFirst cc.1.genes) limit_to).map
        (fun g => snv (cc.1.row g) (cc.2.row g)))
      = (genesAfterLimit (dedupFirst cc.1.genes) limit_to).map
          (fun g => (g, snv (cc.1.row g) (cc.2.row g))) := by
    have := List.zip_map' (id : String → String)
      (fun g => snv (cc.1.row g) (cc.2.row g))
      (genesAfterLimit (dedupFirst cc.1.genes) limit_to)
    simpa using this
  rw [hzip]
  simp [List.map_map]

/-- C3 (amended with a nonempty gene index): for an `ExpressionManager`
with at least one gene, at least one paired case sample and at least one
paired control sample, `differential(case_, control_)` with the
signal-to-noise metric returns the per-gene score of the case against the
control columns, computed by the vectorized signal-to-noise, restricted to
`limit_to` when given, and with `nans=fill_0` the returned series contains
no NaN entry. -/
theorem claim_C3_differential
    (snv : List (Option ℚ) → List (Option ℚ) → Option ℚ)
    (em : EM) (case_ control_ : String) (limit_to : Option (List String))
    (hnd : (em.cols.map Barcode.name).Nodup)
    (hg : em.genes ≠ [])
    (hcase : ∃ b ∈ pairedList em.cols case_ control_, b.sampleType = case_)
    (hctrl : ∃ b ∈ pairedList em.cols case_ control_, b.sampleType = control_) :
    ExpressionManager.differential snv em case_ control_
        Metric.signal_to_noise limit_to true "fill_0"
      = (ExpressionManager.split em case_ control_ true).map (fun cc =>
          (genesAfterLimit (dedupFirst cc.1.genes) limit_to).map
            (fun g => (g, some ((snv (cc.1.row g) (cc.2.row g)).getD 0)))) ∧
    (∀ series, ExpressionManager.differential snv em case_ control_
        Metric.signal_to_noise limit_to true "fill_0" = some series →
      ∀ gv ∈ series, gv.2.isSome = true) := by
  obtain ⟨bc, hbc, hbct⟩ := hcase
  obtain ⟨bn, hbn, hbnt⟩ := hctrl
  have hpr := paired_plain_cols em case_ control_ hnd
  have hprdE : ({ em with cols := pairedList em.cols case_ control_ } : EM).isEmptyDF
      = false := by
    show (em.genes.isEmpty || (pairedList em.cols case_ control_).isEmpty) = false
    rw [isEmpty_false_of_ne hg, isEmpty_false_of_mem hbc]
    rfl
  have hsplit : ExpressionManager.split em case_ control_ true
      = some ({ em with cols := (pairedList em.cols case_ control_).filter (fun b => b.sampleType == case_) }, { em with cols := (pairedList em.cols case_ control_).filter (fun b => b.sampleType == control_) }) := by
    unfold ExpressionManager.split
    simp [hpr, hprdE]
  have hcaseE : ({ em with cols := (pairedList em.cols case_ control_).filter (fun b => b.sampleType == case_) } : EM).isEmptyDF = false := by
    show (em.genes.isEmpty || _) = false
    rw [isEmpty_false_of_ne hg,
      isEmpty_false_of_mem (List.mem_filter.mpr ⟨hbc, by simp [hbct]⟩)]
    rfl
  have hctrlE : ({ em with cols := (pairedList em.cols case_ control_).filter (fun b => b.sampleType == control_) } : EM).isEmptyDF = false := by
    show (em.genes.isEmpty || _) = false
    rw [isEmpty_false_of_ne hg,
      isEmpty_false_of_mem (List.mem_filter.mpr ⟨hbn, by simp [hbnt]⟩)]
    rfl
  have hmain := differential_snr_eq snv em case_ control_ limit_to _ hsplit hcaseE hctrlE
  constructor
  · rw [hmain, hsplit, Option.map_some']
  · intro series hser
    rw [hmain] at hser
    rcases Option.some.inj hser with rfl
    intro gv hgv
    rcases List.mem_map.mp hgv with ⟨g, _, rfl⟩
    rfl

/-- An `ExpressionManager` with a paired tumor and a paired normal sample
but an empty gene index. -/
def emC3empty : EM :=
  { genes := []
    cols := [⟨"A-01", "A", "tumor"⟩, ⟨"A-11", "A", "normal"⟩]
    expr := fun _ _ => some 1 }

/-- C3 counterexample: `emC3empty` has a paired case sample and a paired
control sample, yet `differential` produces no series at all (the split
result is empty in the pandas sense because the gene axis has length 0, so
the code stops), contradicting the claim as stated. -/
theorem claim_C3_counterexample :
    (∃ b ∈ pairedList emC3empty.cols "tumor" "normal", b.sampleType = "tumor") ∧
    (∃ b ∈ pairedList emC3empty.cols "tumor" "normal", b.sampleType = "normal") ∧
    ExpressionManager.differential (fun _ _ => some 1) emC3empty "tumor" "normal"
      Metric.signal_to_noise none true "fill_0" = none := by
  refine ⟨by decide, by decide, ?_⟩
  rfl

/-- Concrete data for the C3 witness: two genes, one paired tumor and one
paired normal sample. -/
def emC3 : EM :=
  { genes := ["g1", "g2"]
    cols := [⟨"A-01", "A", "tumor"⟩, ⟨"A-11", "A", "normal"⟩]
    expr := fun _ _ => some 1 }

/-- C3 witness: all hypotheses hold for `emC3` and a metric that always
returns NaN, and the theorem applies to it: every NaN score is replaced
by 0. -/
theorem claim_C3_witness :
    ((emC3.cols.map Barcode.name).Nodup ∧ emC3.genes ≠ [] ∧
      (∃ b ∈ pairedList emC3.cols "tumor" "normal", b.sampleType = "tumor") ∧
      (∃ b ∈ pairedList emC3.cols "tumor" "normal", b.sampleType = "normal")) ∧
    (ExpressionManager.differential (fun _ _ => none) emC3 "tumor" "normal"
        Metric.signal_to_noise none true "fill_0"
      = (ExpressionManager.split emC3 "tumor" "normal" true).map (fun cc =>
          (genesAfterLimit (dedupFirst cc.1.genes) none).map
            (fun g => (g, some 0))) ∧
    (∀ series, ExpressionManager.differential (fun _ _ => none) emC3 "tumor" "normal"
        Metric.signal_to_noise none true "fill_0" = some series →
      ∀ gv ∈ series, gv.2.isSome = true)) := by
  have h := claim_C3_differential (fun _ _ => none) emC3 "tumor" "normal" none
    (by decide) (by decide) (by decide) (by decide)
  exact ⟨⟨by decide, by decide, by decide, by decide⟩, h⟩

/-- The cache key of `gsva`: `(expression.hashable, method, gene_sets)`. -/
structure GsvaKey where
  hashable : String
  method : String
  gene_sets : String
deriving DecidableEq, Repr

/-- The arguments of a `gsva` call besides `_cache`; the expression is
represented by its `hashable` form, which together with the other
arguments is all the external computation depends on. -/
structure GsvaArgs where
  hashable : String
  gene_sets : String
  method : String
  single_sample : Bool
  permutations : Option Nat
  mx_diff : Bool
deriving DecidableEq, Repr

def GsvaArgs.key (a : GsvaArgs) : GsvaKey := ⟨a.hashable, a.method, a.gene_sets⟩

/-- Lookup in `GSVA_CACHE` (a Python dict, modelled as an
association list in insertion order). -/
def cacheLookup {α : Type} : List (GsvaKey × α) → GsvaKey → Option α
  | [], _ => none
  | (k, v) :: rest, key => if k = key then some v else cacheLookup rest key

/-- Python dict assignment `cache[key] = value`: replaces in place or
appends. -/
def cacheInsert {α : Type} : List (GsvaKey × α) → GsvaKey → α → List (GsvaKey × α)
  | [], key, v => [(key, v)]
  | (k, w) :: rest, key, v =>
      if k = key then (key, v) :: rest else (k, w) :: cacheInsert rest key v

/-- The `gsva` function. `compute` stands for the external R computation
(GSVA, limma, permutations). The result triple is: the returned value
(`none` when the call raises — the `raise warn(...)` guard fires before the
cache is consulted), the cache state after the call, and whether the
external computation ran. -/
def gsva {α : Type} (compute : GsvaArgs → α)
    (cache : List (GsvaKey × α)) (args : GsvaArgs) («_cache» : Bool) :
    Option α × List (GsvaKey × α) × Bool :=
  -- if not single_sample and permutations: raise warn(...)
  if !args.single_sample && optNatTruthy args.permutations then (none, cache, false)
  else
    match cacheLookup cache args.key with
    | some r => (some r, cache, false)
    | none =>
        let result := compute args
        (some result,
          if «_cache» then cacheInsert cache args.key result else cache,
          true)

/-- C5: a call with `single_sample` falsy and `permutations` truthy whose
key is not cached raises before any GSVA computation and leaves
`GSVA_CACHE` unchanged. -/
theorem claim_C5_gsva_guard_raises {α : Type} (compute : GsvaArgs → α)
    (cache : List (GsvaKey × α)) (args : GsvaArgs) (useCache : Bool)
    (hss : args.single_sample = false)
    (hperm : optNatTruthy args.permutations = true)
    (hmiss : cacheLookup cache args.key = none) :
    gsva compute cache args useCache = (none, cache, false) := by
  unfold gsva
  rw [hss, hperm]
  simp

/-- Arguments corresponding to the default call
`gsva(expression, gene_sets)`: `single_sample=False`,
`permutations=1000`. -/
def gsvaArgsDefault : GsvaArgs :=
  ⟨"expr1", "c2.cp.kegg", "gsva", false, some 1000, true⟩

/-- C5 witness: the guard hypotheses hold for the default arguments on an
empty cache, and the theorem applies. -/
theorem claim_C5_witness :
    (gsvaArgsDefault.single_sample = false ∧
      optNatTruthy gsvaArgsDefault.permutations = true ∧
      cacheLookup ([] : List (GsvaKey × Nat)) gsvaArgsDefault.key = none) ∧
    gsva (fun _ => (7 : Nat)) [] gsvaArgsDefault true = (none, [], false) :=
  ⟨⟨rfl, rfl, rfl⟩,
    claim_C5_gsva_guard_raises (fun _ => 7) [] gsvaArgsDefault true rfl rfl rfl⟩

/-- The cache key of `gsvaArgsDefault`. -/
def gsvaKeyEx : GsvaKey := ⟨"expr1", "gsva", "c2.cp.kegg"⟩

/-- C2 counterexample: with the key present in `GSVA_CACHE` (stored value
`5`), a call with the default `single_sample=False, permutations=1000`
raises instead of returning the stored result, because the `raise` fires
before the cache lookup. -/
theorem claim_C2_counterexample :
    cacheLookup [(gsvaKeyEx, (5 : Nat))] gsvaArgsDefault.key = some 5 ∧
    gsva (fun _ => (7 : Nat)) [(gsvaKeyEx, 5)] gsvaArgsDefault true
      = (none, [(gsvaKeyEx, 5)], false) := by
  exact ⟨by decide, by decide⟩

/-- C2 (amended to calls that pass the permutations guard, i.e. with
`single_sample` truthy or `permutations` falsy): `gsva` memoizes — a
guard-passing call with `_cache=True` and an uncached key stores its result
under `(expression.hashable, method, gene_sets)`, and every guard-passing
call whose key is present returns the stored result without running the
computation or modifying the cache. -/
theorem claim_C2_gsva_memoizes {α : Type} (compute : GsvaArgs → α)
    (cache : List (GsvaKey × α)) (args : GsvaArgs)
    (hguard : (!args.single_sample && optNatTruthy args.permutations) = false) :
    (∀ r, cacheLookup cache args.key = some r →
      ∀ useCache, gsva compute cache args useCache = (some r, cache, false)) ∧
    (cacheLookup cache args.key = none →
      gsva compute cache args true
        = (some (compute args), cacheInsert cache args.key (compute args), true)) := by
  constructor
  · intro r hr useCache
    unfold gsva
    rw [hguard, hr]
    simp
  · intro hm
    unfold gsva
    rw [hguard, hm]
    simp

/-- Arguments that agree with `gsvaArgsDefault` on the cache key but pass
the guard (`single_sample=True`). -/
def gsvaArgsOk : GsvaArgs :=
  ⟨"expr1", "c2.cp.kegg", "gsva", true, some 1000, true⟩

/-- C2 witness: the guard hypothesis holds for `gsvaArgsOk`; the amended
theorem applies, and its two parts are exercised by a cached and an
uncached state. -/
theorem claim_C2_witness :
    ((!gsvaArgsOk.single_sample && optNatTruthy gsvaArgsOk.permutations) = false) ∧
    ((∀ r, cacheLookup [(gsvaKeyEx, (5 : Nat))] gsvaArgsOk.key = some r →
      ∀ useCache, gsva (fun _ => (7 : Nat)) [(gsvaKeyEx, 5)] gsvaArgsOk useCache
        = (some r, [(gsvaKeyEx, 5)], false)) ∧
    (cacheLookup [(gsvaKeyEx, (5 : Nat))] gsvaArgsOk.key = none →
      gsva (fun _ => (7 : Nat)) [(gsvaKeyEx, 5)] gsvaArgsOk true
        = (some 7, cacheInsert [(gsvaKeyEx, 5)] gsvaArgsOk.key 7, true))) :=
  ⟨rfl, claim_C2_gsva_memoizes (fun _ => 7) [(gsvaKeyEx, 5)] gsvaArgsOk rfl⟩

theorem cacheLookup_insert {α : Type} (cache : List (GsvaKey × α)) (k : GsvaKey) (v : α) :
    cacheLookup (cacheInsert cache k v) k = some v := by
  induction cache with
  | nil => simp [cacheInsert, cacheLookup]
  | cons kv rest ih =>
    obtain ⟨k', w⟩ := kv
    by_cases h : k' = k
    · simp [cacheInsert, cacheLookup, h]
    · simp [cacheInsert, cacheLookup, h, ih]

theorem cacheLookup_insert_ne {α : Type} (cache : List (GsvaKey × α))
    (k k' : GsvaKey) (v : α) (h : k' ≠ k) :
    cacheLookup (cacheInsert cache k v) k' = cacheLookup cache k' := by
  have hkk : ¬ k = k' := fun hc => h hc.symm
  induction cache with
  | nil => simp [cacheInsert, cacheLookup, hkk]
  | cons kv rest ih =>
    obtain ⟨k0, w⟩ := kv
    by_cases h0 : k0 = k
    · simp [cacheInsert, cacheLookup, h0, hkk]
    · simp [cacheInsert, cacheLookup, h0, ih]

/-- C6 counterexample: a first call (guard-passing, `single_sample=True`)
computes and caches the result `7`; a second call agreeing on
`hashable`, `method` and `gene_sets` but with `single_sample=False` (and
`permutations=1000`) raises instead of returning the cached object. -/
theorem claim_C6_counterexample :
    gsva (fun _ => (7 : Nat)) [] gsvaArgsOk true = (some 7, [(gsvaKeyEx, 7)], true) ∧
    gsvaArgsDefault.hashable = gsvaArgsOk.hashable ∧
    gsvaArgsDefault.method = gsvaArgsOk.method ∧
    gsvaArgsDefault.gene_sets = gsvaArgsOk.gene_sets ∧
    gsva (fun _ => (7 : Nat)) [(gsvaKeyEx, 7)] gsvaArgsDefault true
      = (none, [(gsvaKeyEx, 7)], false) := by
  exact ⟨by decide, rfl, rfl, rfl, by decide⟩

/-- C6 (amended to guard-passing calls): two calls with `_cache=True` that
agree on `expression.hashable`, `method` and `gene_sets`, each with
`single_sample` truthy or `permutations` falsy, return the same result
even when they differ in `permutations`, `mx_diff` or `single_sample`:
those parameters are not part of the cache key. -/
theorem claim_C6_gsva_key_only {α : Type} (compute : GsvaArgs → α)
    (cache c1 : List (GsvaKey × α)) (args1 args2 : GsvaArgs) (r : α) (b : Bool)
    (hkey : args1.key = args2.key)
    (hg1 : (!args1.single_sample && optNatTruthy args1.permutations) = false)
    (hg2 : (!args2.single_sample && optNatTruthy args2.permutations) = false)
    (h1 : gsva compute cache args1 true = (some r, c1, b)) :
    (gsva compute c1 args2 true).1 = some r := by
  unfold gsva at h1 ⊢
  rw [hg1] at h1
  rw [hg2]
  simp only [Bool.false_eq_true, if_false] at h1 ⊢
  cases hl : cacheLookup cache args1.key with
  | some x =>
    rw [hl] at h1
    simp only [Prod.mk.injEq, Option.some.inj] at h1
    obtain ⟨hx, hc, _⟩ := h1
    rw [← hkey, ← hc, hl, hx]
  | none =>
    rw [hl] at h1
    simp only [Prod.mk.injEq, Option.some.inj, if_true] at h1
    obtain ⟨hx, hc, _⟩ := h1
    rw [← hkey, ← hc, cacheLookup_insert, hx]

/-- A third set of arguments with the same key: `single_sample=False` but
`permutations=None` (so the guard passes), and `mx_diff=False`. -/
def gsvaArgsOk2 : GsvaArgs :=
  ⟨"expr1", "c2.cp.kegg", "gsva", false, none, false⟩

/-- C6 witness: the two guard-passing calls share the key while differing
in `single_sample`, `permutations` and `mx_diff`; the second returns the
result cached by the first. -/
theorem claim_C6_witness :
    (gsvaArgsOk.key = gsvaArgsOk2.key ∧
      (!gsvaArgsOk.single_sample && optNatTruthy gsvaArgsOk.permutations) = false ∧
      (!gsvaArgsOk2.single_sample && optNatTruthy gsvaArgsOk2.permutations) = false ∧
      gsva (fun _ => (7 : Nat)) [] gsvaArgsOk true = (some 7, [(gsvaKeyEx, 7)], true)) ∧
    (gsva (fun _ => (7 : Nat)) [(gsvaKeyEx, 7)] gsvaArgsOk2 true).1 = some 7 :=
  ⟨⟨rfl, rfl, rfl, by decide⟩,
    claim_C6_gsva_key_only (fun _ => 7) [] [(gsvaKeyEx, 7)] gsvaArgsOk gsvaArgsOk2 7 true
      rfl rfl rfl (by decide)⟩

/-- One row of a gsva result table after renaming: the gene-set name,
its fdr_q-val (`none` models NaN) and its nes value. -/
structure GeneSetRow where
  gene_set : String
  fdr_q_val : Option ℚ
  nes : ℚ
deriving DecidableEq, Repr

/-- The statement `disease_gene_sets.drop(disease_gene_sets[disease_gene_sets[...] >
q_value_cutoff].index, inplace=True)`: rows whose fdr_q-val exceeds the
cutoff are removed; a NaN fdr_q-val does not exceed anything in pandas,
so such rows are kept. -/
def dropAboveCutoff (t : List GeneSetRow) (q_value_cutoff : ℚ) : List GeneSetRow :=
  t.filter (fun r => match r.fdr_q_val with
    | none => true
    | some v => !(decide (q_value_cutoff < v)))

/-- Pandas `Series.mean()`: NaN (`none`) on an empty series. -/
def seriesMean (l : List ℚ) : Option ℚ :=
  if l.isEmpty then none else some (l.sum / l.length)

/-- The `gsva_score` closure built by `create_gsva_scorer`.
`compute` is the external GSVA computation; `combine` stands for
`combine_gsea_results` (defined in `.gsea`, not under `src/`), modelled
from the spec as the function producing the score column of the joined
table. The disease call uses the cache (`_cache=True`); its result is then
filtered with an inplace `drop`, which also mutates the object stored in
`GSVA_CACHE`, so the cache entry is updated to the filtered table. The
compound call passes `_cache=False`. The first component is `none` when a
`gsva` call raises. -/
def gsva_score (compute : GsvaArgs → List GeneSetRow)
    (combine : List GeneSetRow → List GeneSetRow → List ℚ)
    (gene_sets method : String) (single_sample : Bool)
    (permutations : Option Nat) (mx_diff : Bool) (q_value_cutoff : ℚ)
    (cache : List (GsvaKey × List GeneSetRow)) (disease_hash compound_hash : String) :
    Option (Option ℚ) × List (GsvaKey × List GeneSetRow) :=
  let dargs : GsvaArgs :=
    ⟨disease_hash, gene_sets, method, single_sample, permutations, mx_diff⟩
  match gsva compute cache dargs true with
  | (none, c, _) => (none, c)
  | (some d, c1, _) =>
      let dFiltered := dropAboveCutoff d q_value_cutoff
      let c1Mutated := cacheInsert c1 dargs.key dFiltered
      let cargs : GsvaArgs :=
        ⟨compound_hash, gene_sets, method, single_sample, permutations, mx_diff⟩
      match gsva compute c1Mutated cargs false with
      | (none, c2, _) => (none, c2)
      | (some cmp, c2, _) => (some (seriesMean (combine dFiltered cmp)), c2)

theorem gsva_miss {α : Type} (compute : GsvaArgs → α)
    (cache : List (GsvaKey × α)) (args : GsvaArgs) (useCache : Bool)
    (hg : (!args.single_sample && optNatTruthy args.permutations) = false)
    (hm : cacheLookup cache args.key = none) :
    gsva compute cache args useCache
      = (some (compute args),
        if useCache then cacheInsert cache args.key (compute args) else cache,
        true) := by
  unfold gsva
  rw [hg, hm]
  simp

/-- C4: the scorer produced by `create_gsva_scorer` computes the GSVA
enrichment of the disease and the compound profile against the configured
gene sets, removes the disease gene sets whose fdr_q-val exceeds
`q_value_cutoff`, combines the remaining disease gene sets with the
compound gene sets, and returns the mean of the combined score column.
Stated for guard-passing configurations (`permutations=None` is the
creator default) and uncached profiles, so that both enrichments are
actually computed. -/
theorem claim_C4_gsva_scorer (compute : GsvaArgs → List GeneSetRow)
    (combine : List GeneSetRow → List GeneSetRow → List ℚ)
    (gene_sets method : String) (single_sample : Bool)
    (permutations : Option Nat) (mx_diff : Bool) (q_value_cutoff : ℚ)
    (cache : List (GsvaKey × List GeneSetRow)) (dh ch : String)
    (hguard : (!single_sample && optNatTruthy permutations) = false)
    (hd : cacheLookup cache ⟨dh, method, gene_sets⟩ = none)
    (hne : ch ≠ dh)
    (hc : cacheLookup cache ⟨ch, method, gene_sets⟩ = none) :
    (gsva_score compute combine gene_sets method single_sample permutations
        mx_diff q_value_cutoff cache dh ch).1
      = some (seriesMean (combine
          (dropAboveCutoff
            (compute ⟨dh, gene_sets, method, single_sample, permutations, mx_diff⟩)
            q_value_cutoff)
          (compute ⟨ch, gene_sets, method, single_sample, permutations, mx_diff⟩))) := by
  have hkeyne : (⟨ch, method, gene_sets⟩ : GsvaKey) ≠ ⟨dh, method, gene_sets⟩ := by
    intro hcon
    exact hne (congrArg GsvaKey.hashable hcon)
  have h1 := gsva_miss compute cache
    ⟨dh, gene_sets, method, single_sample, permutations, mx_diff⟩ true hguard hd
  have hlook2 : cacheLookup
      (cacheInsert
        (cacheInsert cache ⟨dh, method, gene_sets⟩
          (compute ⟨dh, gene_sets, method, single_sample, permutations, mx_diff⟩))
        ⟨dh, method, gene_sets⟩
        (dropAboveCutoff
          (compute ⟨dh, gene_sets, method, single_sample, permutations, mx_diff⟩)
          q_value_cutoff))
      ⟨ch, method, gene_sets⟩ = none := by
    rw [cacheLookup_insert_ne _ _ _ _ hkeyne, cacheLookup_insert_ne _ _ _ _ hkeyne]
    exact hc
  have h2 := gsva_miss compute _
    ⟨ch, gene_sets, method, single_sample, permutations, mx_diff⟩ false hguard hlook2
  simp [gsva_score, GsvaArgs.key, h1, h2]

/-- A concrete external computation for the C4 witness: the disease
profile gets two gene sets (one below, one above the cutoff), the
compound profile one gene set with NaN fdr_q-val. -/
def computeC4 : GsvaArgs → List GeneSetRow := fun a =>
  if a.hashable == "d" then
    [⟨"s1", some (1/20 : ℚ), 1⟩, ⟨"s2", some (1/2 : ℚ), 2⟩]
  else
    [⟨"s1", none, 3⟩]

/-- A concrete combiner for the C4 witness: the nes column of the
concatenation. -/
def combineC4 : List GeneSetRow → List GeneSetRow → List ℚ :=
  fun d c => (d ++ c).map GeneSetRow.nes

/-- C4 witness: all hypotheses hold for the concrete configuration
(`permutations=None` as in the creator default) and the theorem applies
to it. -/
theorem claim_C4_witness :
    ((!false && optNatTruthy none) = false ∧
      cacheLookup ([] : List (GsvaKey × List GeneSetRow))
        ⟨"d", "gsva", "c2.cp.kegg"⟩ = none ∧
      ("c" : String) ≠ "d" ∧
      cacheLookup ([] : List (GsvaKey × List GeneSetRow))
        ⟨"c", "gsva", "c2.cp.kegg"⟩ = none) ∧
    (gsva_score computeC4 combineC4 "c2.cp.kegg" "gsva" false none true
        (1/10) [] "d" "c").1
      = some (seriesMean (combineC4
          (dropAboveCutoff
            (computeC4 ⟨"d", "c2.cp.kegg", "gsva", false, none, true⟩) (1/10))
          (computeC4 ⟨"c", "c2.cp.kegg", "gsva", false, none, true⟩))) :=
  ⟨⟨rfl, rfl, by decide, rfl⟩,
    claim_C4_gsva_scorer computeC4 combineC4 "c2.cp.kegg" "gsva" false none true
      (1/10) [] "d" "c" rfl rfl (by decide) rfl⟩

/-- A DataFrame as `Layers` sees it: rows indexed by `I` with payload `R`.
`v[v.index.map(func)]` filters rows by a boolean function of the index and
`v.index = v.index.map(mapper)` maps the index. -/
structure DF (I R : Type) where
  rows : List (I × R)
deriving DecidableEq

def DF.mapIndex {I R : Type} (mapper : I → I) (df : DF I R) : DF I R :=
  ⟨df.rows.map (fun ir => (mapper ir.1, ir.2))⟩

def DF.filterRows {I R : Type} (func : I → Bool) (df : DF I R) : DF I R :=
  ⟨df.rows.filter (fun ir => func ir.1)⟩

/-- Python dict assignment `d[k] = v` on an association list kept in
insertion order: replace in place or append. -/
def dictSet {K V : Type} [DecidableEq K] : List (K × V) → K → V → List (K × V)
  | [], k, v => [(k, v)]
  | (k', w) :: rest, k, v =>
      if k' = k then (k, v) :: rest else (k', w) :: dictSet rest k v

/-- The method `Layers.filter`: filters every stored layer by the index function. -/
def Layers.filterLayers {K I R : Type} (func : I → Bool)
    (layers : List (K × DF I R)) : List (K × DF I R) :=
  layers.map (fun kv => (kv.1, DF.filterRows func kv.2))

/-- The constructor `Layers.__init__`: the first loop stores deep copies, `self.filter(filter)`
filters the stored layers, and the second loop maps each caller DataFrame
index by `mapper` (mutating the caller object) and stores it, overwriting
the filtered copy. -/
def Layers.init {K I R : Type} [DecidableEq K] (data : List (K × DF I R))
    (mapper : I → I) (filt : I → Bool) : List (K × DF I R) :=
  let layers0 := data.foldl (fun acc kv => dictSet acc kv.1 kv.2) []
  let layers1 := Layers.filterLayers filt layers0
  data.foldl (fun acc kv => dictSet acc kv.1 (DF.mapIndex mapper kv.2)) layers1

theorem dictSet_append_of_not_mem {K V : Type} [DecidableEq K]
    (acc : List (K × V)) (k : K) (v : V) (h : k ∉ acc.map Prod.fst) :
    dictSet acc k v = acc ++ [(k, v)] := by
  induction acc with
  | nil => rfl
  | cons kv rest ih =>
    obtain ⟨k', w⟩ := kv
    have hne : k' ≠ k := by
      intro hc
      exact h (by simp [hc])
    simp only [dictSet, if_neg hne]
    rw [ih (fun hm => h (by simp [List.mem_map] at hm ⊢; exact Or.inr hm))]
    rfl

theorem foldl_dictSet_fresh {K V : Type} [DecidableEq K] (data : List (K × V)) :
    ∀ acc : List (K × V), (data.map Prod.fst).Nodup →
      (∀ k ∈ data.map Prod.fst, k ∉ acc.map Prod.fst) →
      data.foldl (fun acc kv => dictSet acc kv.1 kv.2) acc = acc ++ data := by
  induction data with
  | nil =>
    intro acc _ _
    simp
  | cons kv rest ih =>
    intro acc hnd hdis
    rw [List.map_cons] at hnd
    obtain ⟨hk, hndr⟩ := List.nodup_cons.mp hnd
    simp only [List.foldl_cons]
    rw [dictSet_append_of_not_mem acc kv.1 kv.2 (hdis kv.1 (by simp))]
    rw [ih (acc ++ [kv]) hndr ?_]
    · simp
    · intro k hkr
      intro hmem
      rcases List.mem_map.mp hmem with ⟨p, hp, hpk⟩
      rcases List.mem_append.mp hp with hpa | hpb
      · exact hdis k (by simp [hkr]) (hpk ▸ List.mem_map_of_mem Prod.fst hpa)
      · rw [List.mem_singleton.mp hpb] at hpk
        rw [hpk] at hk
        exact hk hkr

theorem dictSet_cons_ne {K V : Type} [DecidableEq K] (k : K) (x : V)
    (L : List (K × V)) (k' : K) (v : V) (h : k ≠ k') :
    dictSet ((k, x) :: L) k' v = (k, x) :: dictSet L k' v := by
  simp [dictSet, h]

theorem foldl_dictSet_cons_ne {K V : Type} [DecidableEq K] (g : V → V)
    (l : List (K × V)) (k : K) (x : V) (L : List (K × V))
    (h : k ∉ l.map Prod.fst) :
    l.foldl (fun acc kv => dictSet acc kv.1 (g kv.2)) ((k, x) :: L)
      = (k, x) :: l.foldl (fun acc kv => dictSet acc kv.1 (g kv.2)) L := by
  induction l generalizing L with
  | nil => rfl
  | cons kv rest ih =>
    simp only [List.foldl_cons]
    rw [dictSet_cons_ne k x L kv.1 (g kv.2) (fun hc => h (by simp [hc]))]
    exact ih _ (fun hm => h (by simp [List.mem_map] at hm ⊢; exact Or.inr hm))

theorem foldl_dictSet_update {K V : Type} [DecidableEq K] (g : V → V)
    (data : List (K × V)) :
    ∀ L : List (K × V), L.map Prod.fst = data.map Prod.fst →
      (data.map Prod.fst).Nodup →
      data.foldl (fun acc kv => dictSet acc kv.1 (g kv.2)) L
        = data.map (fun kv => (kv.1, g kv.2)) := by
  induction data with
  | nil =>
    intro L hL _
    cases L with
    | nil => rfl
    | cons p L' => simp at hL
  | cons kv rest ih =>
    intro L hL hnd
    cases L with
    | nil => simp at hL
    | cons p L' =>
      obtain ⟨k0, w0⟩ := p
      simp only [List.map_cons, List.cons.injEq] at hL
      obtain ⟨hk0, hL'⟩ := hL
      rw [List.map_cons] at hnd
      obtain ⟨hk, hndr⟩ := List.nodup_cons.mp hnd
      simp only [List.foldl_cons]
      rw [show dictSet ((k0, w0) :: L') kv.1 (g kv.2) = (kv.1, g kv.2) :: L' by
        simp [dictSet, hk0]]
      rw [foldl_dictSet_cons_ne g rest kv.1 (g kv.2) L' hk]
      rw [ih L' hL' hndr]
      rfl

/-- C9: after `Layers(data, mapper, filter)` completes, the stored layer
for each key equals the caller input DataFrame with `mapper` applied to
its index; the `filter` argument has no effect, because the second loop of
the constructor overwrites the filtered copies. (Keys of a Python dict are
distinct.) -/
theorem claim_C9_layers_init {K I R : Type} [DecidableEq K]
    (data : List (K × DF I R)) (mapper : I → I) (filt : I → Bool)
    (hnd : (data.map Prod.fst).Nodup) :
    Layers.init data mapper filt
      = data.map (fun kv => (kv.1, DF.mapIndex mapper kv.2)) := by
  unfold Layers.init
  rw [foldl_dictSet_fresh data [] hnd (by simp)]
  rw [List.nil_append]
  have hL : (Layers.filterLayers filt data).map Prod.fst = data.map Prod.fst := by
    unfold Layers.filterLayers
    rw [List.map_map]
    rfl
  exact foldl_dictSet_update (DF.mapIndex mapper) data
    (Layers.filterLayers filt data) hL hnd

/-- Concrete data for the C9 witness. -/
def dataC9 : List (String × DF Nat Nat) :=
  [("mutation", ⟨[(1, 10), (2, 20)]⟩), ("expression", ⟨[(2, 5)]⟩)]

/-- C9 witness: the keys are distinct and the theorem applies; the stored
layers are the inputs with the index mapped, regardless of the filter
(which here would drop every row with index other than 1). -/
theorem claim_C9_witness :
    (dataC9.map Prod.fst).Nodup ∧
    Layers.init dataC9 (fun i => i + 1) (fun i => decide (i = 1))
      = dataC9.map (fun kv => (kv.1, DF.mapIndex (fun i => i + 1) kv.2)) :=
  ⟨by decide, claim_C9_layers_init dataC9 (fun i => i + 1) (fun i => decide (i = 1))
    (by decide)⟩

/-- The protein length data of `bio.protein_sequences.ProteinSequences`
(not under `src/`). Modelled from the spec: `average_length(protein)`
looks up the average length of the named protein and may fail
(`StatisticsError`/`KeyError`, here `none`); `average_length()` is the
overall average protein length. -/
structure ProteinDB where
  average_length_of : String → Option ℚ
  average_length_all : ℚ

/-- The `normalize` closure of
`CodingMutationLayer.normalize_by_protein_length`, applied to one column:
divide by the protein average length when known; otherwise divide by
the overall average when `recover`, else replace by `column * nan`
(an all-NaN column). -/
def normalizeColumn (db : ProteinDB) (recover : Bool) (name : String)
    (vals : List (Option ℚ)) : List (Option ℚ) :=
  match db.average_length_of name with
  | some len => vals.map (fun v => v.map (fun x => x / len))
  | none =>
      if recover then vals.map (fun v => v.map (fun x => x / db.average_length_all))
      else vals.map (fun _ => none)

/-- The method `normalize_by_protein_length`: `self.apply(normalize)` over columns,
column by column. -/
def normalize_by_protein_length (db : ProteinDB) (recover : Bool)
    (layer : List (String × List (Option ℚ))) : List (String × List (Option ℚ)) :=
  layer.map (fun c => (c.1, normalizeColumn db recover c.1 c.2))

/-- C10: in `normalize_by_protein_length`, every column whose protein name
has a known average length is divided element-wise by it; a column whose
length lookup fails is divided by the overall average length when
`recover=True` and replaced by an all-NaN column when `recover=False`. -/
theorem claim_C10_normalize (db : ProteinDB) (recover : Bool)
    (layer : List (String × List (Option ℚ))) :
    ∀ c ∈ layer,
      (∀ len, db.average_length_of c.1 = some len →
        (c.1, c.2.map (Option.map (fun x => x / len)))
          ∈ normalize_by_protein_length db recover layer) ∧
      (db.average_length_of c.1 = none → recover = true →
        (c.1, c.2.map (Option.map (fun x => x / db.average_length_all)))
          ∈ normalize_by_protein_length db recover layer) ∧
      (db.average_length_of c.1 = none → recover = false →
        (c.1, List.replicate c.2.length none)
          ∈ normalize_by_protein_length db recover layer) := by
  intro c hc
  refine ⟨?_, ?_, ?_⟩
  · intro len hlen
    exact List.mem_map.mpr ⟨c, hc, by simp [normalizeColumn, hlen]⟩
  · intro hnone hrec
    exact List.mem_map.mpr ⟨c, hc, by simp [normalizeColumn, hnone, hrec]⟩
  · intro hnone hrec
    refine List.mem_map.mpr ⟨c, hc, ?_⟩
    simp [normalizeColumn, hnone, hrec, List.map_const']

/-- Concrete protein data for the C10 witness: only TP53 has a known
average length. -/
def dbC10 : ProteinDB := ⟨fun n => if n == "TP53" then some 4 else none, 2⟩

/-- A concrete mutation layer for the C10 witness. -/
def layerC10 : List (String × List (Option ℚ)) :=
  [("TP53", [some 8, none]), ("XYZ", [some 6])]

/-- C10 witness: TP53 is a column of the layer with known average
length 4, and the theorem applies, dividing its column by 4. -/
theorem claim_C10_witness :
    (("TP53", ([some (8 : ℚ), none] : List (Option ℚ))) ∈ layerC10 ∧
      dbC10.average_length_of "TP53" = some 4) ∧
    ("TP53", ([some (8 : ℚ), none] : List (Option ℚ)).map
        (Option.map (fun x => x / 4)))
      ∈ normalize_by_protein_length dbC10 true layerC10 :=
  ⟨⟨by decide, rfl⟩,
    (claim_C10_normalize dbC10 true layerC10 ("TP53", [some 8, none])
      (by decide)).1 4 rfl⟩


end DDPM
